import Mathlib

/-!
Verification of the hexdump formatter `src/gen_hexdump.cpp`.

The program is embedded shallowly: strings are `List Char`, the output file
stream is a list of emitted lines, the global `uint32_t gLinePrefix` is passed
as an explicit `Nat` state (paired with `% 2^32` where the source increments
it), and `std::string::operator[]` at an index `≤ size()` is modelled by
`List.getD` with the C++11 null-terminator default.
-/

set_option maxRecDepth 10000

/-- C `isxdigit` restricted to ASCII: `0-9`, `a-f`, `A-F`. -/
def isxdigit (c : Char) : Bool :=
  decide ((48 ≤ c.toNat ∧ c.toNat ≤ 57) ∨ (97 ≤ c.toNat ∧ c.toNat ≤ 102) ∨
          (65 ≤ c.toNat ∧ c.toNat ≤ 70))

/-- C `isblank` in the C locale: space or horizontal tab. -/
def isblank (c : Char) : Bool :=
  decide (c.toNat = 32 ∨ c.toNat = 9)

/-- C `tolower` restricted to ASCII. -/
def tolowerC (c : Char) : Char :=
  if 65 ≤ c.toNat ∧ c.toNat ≤ 90 then Char.ofNat (c.toNat + 32) else c

/-- `std::string` indexing as specified by C++11: positions `0 … size()` are
readable, position `size()` holds the null character. -/
def cppGet (s : List Char) (i : Nat) : Char :=
  s.getD i (Char.ofNat 0)

/-- Number of leading carriage-return characters skipped by the
`while(line[i] == '\r') i++;` loop of `preprocess_hex_str`. -/
def countCR (s : List Char) : Nat :=
  (s.takeWhile (fun c => c == '\r')).length

/-- The pure classifier condition of `preprocess_hex_str` (gen_hexdump.cpp
line 79): after skipping leading CRs, two hex digits, a blank, two hex
digits. -/
def preHex (s : List Char) : Bool :=
  let i := countCR s
  isxdigit (cppGet s i) && isxdigit (cppGet s (i+1)) && isblank (cppGet s (i+2)) &&
    isxdigit (cppGet s (i+3)) && isxdigit (cppGet s (i+4))

/-- `preprocess_hex_str` (gen_hexdump.cpp lines 69-84) with the global
`gLinePrefix` passed explicitly: returns the classification and the new value
of `gLinePrefix` (reset to 0 on a non-hex line). -/
def preprocess_hex_str (s : List Char) (g : Nat) : Bool × Nat :=
  if preHex s then (true, g) else (false, 0)

/-- One lowercase hex digit (`%x` conversion). -/
def hexDigitChar (n : Nat) : Char :=
  if n < 10 then Char.ofNat (48 + n) else Char.ofNat (87 + n)

/-- Hex digits of `n`, most significant first, with `f` digits of fuel
(8 suffice for a `uint32_t`); empty for `n = 0`. -/
def toHexAux : Nat → Nat → List Char
  | 0, _ => []
  | _ + 1, 0 => []
  | f + 1, n + 1 => toHexAux f ((n + 1) / 16) ++ [hexDigitChar ((n + 1) % 16)]

/-- Hex rendering of a `uint32_t` value, as `%x` prints it. -/
def toHexU32 (n : Nat) : List Char :=
  if n = 0 then ['0'] else toHexAux 8 n

/-- The offset field produced by `snprintf(buf, …, "%06x ", gLinePrefix)`
without the trailing space: lowercase hex, zero-padded to at least 6 digits. -/
def offsetDigits (g : Nat) : List Char :=
  List.replicate (6 - (toHexU32 g).length) '0' ++ toHexU32 g

/-- The full row prefix written by the `snprintf`: offset digits then one
space. -/
def offsetPfx (g : Nat) : List Char :=
  offsetDigits g ++ [' ']

/-- The separator text the loop appends right after completing byte number
`b` of a row: an extra space after byte 8, and a normal separating space
after every byte except the 16th. -/
def sepAfterByte (b : Nat) : List Char :=
  (if b = 8 then [' '] else []) ++ (if b ≠ 16 then [' '] else [])

/-- Body of an output row holding the digit sequence `r`, with `k` bytes
already completed before `r` starts (the loop of `gen_hexdump` writes digits
in pairs and appends `sepAfterByte` after each completed pair). -/
def rowBodyAux : Nat → List Char → List Char
  | _, [] => []
  | _, [d] => [d]
  | k, d1 :: d2 :: rest => d1 :: d2 :: (sepAfterByte (k + 1) ++ rowBodyAux (k + 1) rest)

/-- Body of an output row holding the digit sequence `r`, starting from an
empty row. -/
def rowBody (r : List Char) : List Char :=
  rowBodyAux 0 r

/-- The loop state of `gen_hexdump` (gen_hexdump.cpp lines 91-99): the row
under construction, the column index `cidx`, the index `last_space` of the
last separating space, the byte count `num_hex` of the current row, the
global `gLinePrefix`, and the lines already written to the stream. -/
structure FmtState where
  line : List Char
  cidx : Nat
  last_space : Nat
  num_hex : Nat
  g : Nat
  out : List (List Char)

/-- Loop body of `gen_hexdump` (lines 101-136) for a character that survived
the `isxdigit` test, already lowercased. -/
def stepDigit (st : FmtState) (c : Char) : FmtState :=
  let st1 : FmtState := { st with line := st.line ++ [c], cidx := st.cidx + 1 }
  let st2 : FmtState :=
    if st1.cidx - st1.last_space > 2 then
      let n := st1.num_hex + 1
      let stA : FmtState :=
        if n = 8 then { st1 with line := st1.line ++ [' '], cidx := st1.cidx + 1 } else st1
      let stB : FmtState :=
        if n ≠ 16 then
          { stA with line := stA.line ++ [' '], last_space := stA.cidx, cidx := stA.cidx + 1 }
        else stA
      { stB with num_hex := n }
    else st1
  if st2.num_hex = 16 then
    let g2 := (st2.g + 16) % 4294967296
    let pre := offsetPfx g2
    { line := pre, cidx := pre.length, last_space := pre.length - 1, num_hex := 0,
      g := g2, out := st2.out ++ [st2.line] }
  else st2

/-- Loop body of `gen_hexdump` for an arbitrary input character: lowercase
it, skip it unless it is a hex digit. -/
def stepChar (st : FmtState) (c0 : Char) : FmtState :=
  let c := tolowerC c0
  if isxdigit c then stepDigit st c else st

/-- `gen_hexdump` (gen_hexdump.cpp lines 86-139).  Takes the global
`gLinePrefix` and the input string, returns the new `gLinePrefix` and the
lines written to the output stream. -/
def gen_hexdump (g : Nat) (s : List Char) : Nat × List (List Char) :=
  match preprocess_hex_str s g with
  | (false, g0) => (g0, [])
  | (true, g0) =>
    let pre := offsetPfx g0
    let st0 : FmtState :=
      { line := pre, cidx := pre.length, last_space := pre.length - 1, num_hex := 0,
        g := g0, out := [] }
    let st := s.foldl stepChar st0
    (st.g, st.out ++ (if st.num_hex ≠ 0 || st.cidx - st.last_space > 1 then [st.line] else []))

/-- The loop of `read_hex_gen_dump` (gen_hexdump.cpp lines 168-171): call
`gen_hexdump` once per non-empty line, threading `gLinePrefix` and
concatenating the output. -/
def runLines (g : Nat) : List (List Char) → Nat × List (List Char)
  | [] => (g, [])
  | l :: ls =>
    let p := if l.isEmpty then (g, ([] : List (List Char))) else gen_hexdump g l
    let q := runLines p.1 ls
    (q.1, p.2 ++ q.2)

/-- The hex-digit stream the loop of `gen_hexdump` extracts from the input:
every character is lowercased, non-hex characters are skipped. -/
def extractDigits (s : List Char) : List Char :=
  (s.map tolowerC).filter (fun c => isxdigit c)

/-- Abstract view of the digit-processing loop: state is the current
`gLinePrefix`, the emitted lines and the digits of the row under
construction; a row is flushed when its 32nd digit arrives. -/
def absRun : Nat → List (List Char) → List Char → List Char → Nat × List (List Char) × List Char
  | g, out, r, [] => (g, out, r)
  | g, out, r, d :: ds =>
    if r.length = 31 then
      absRun ((g + 16) % 4294967296) (out ++ [offsetPfx g ++ rowBody (r ++ [d])]) [] ds
    else
      absRun g out (r ++ [d]) ds

/-- Concretization of the abstract loop state into the `FmtState` record. -/
def mkState (g : Nat) (out : List (List Char)) (r : List Char) : FmtState :=
  { line := offsetPfx g ++ rowBody r
  , cidx := (offsetPfx g ++ rowBody r).length
  , last_space := (offsetPfx g ++ rowBody r).length - 1 - r.length % 2
  , num_hex := r.length / 2
  , g := g
  , out := out }

/-- Closed form of the lines `gen_hexdump` emits for digit stream `D`
starting at offset `g`: one row per 32-digit chunk, plus a final short row
when digits remain. -/
def hexRows (g : Nat) (D : List Char) : List (List Char) :=
  (List.range (D.length / 32)).map
    (fun i => offsetPfx ((g + 16 * i) % 4294967296) ++ rowBody ((D.drop (32 * i)).take 32))
  ++ (if D.length % 32 = 0 then []
      else [offsetPfx ((g + 16 * (D.length / 32)) % 4294967296) ++
              rowBody (D.drop (32 * (D.length / 32)))])

/-- The byte groups of a digit sequence: consecutive pairs, with a final
one-character group when the digit count is odd. -/
def byteGroups : List Char → List (List Char)
  | [] => []
  | [d] => [[d]]
  | d1 :: d2 :: rest => [d1, d2] :: byteGroups rest

/-- Rendering of byte groups as claim C3 words it: groups joined by a single
space, except two spaces between the 8th and the 9th group; nothing after
the last group.  `i` is the 1-based index of the first group. -/
def renderSpec : Nat → List (List Char) → List Char
  | _, [] => []
  | _, [gp] => gp
  | i, gp :: gp2 :: gps =>
    gp ++ (if i = 8 then [' ', ' '] else [' ']) ++ renderSpec (i + 1) (gp2 :: gps)

/-- Indices `preprocess_hex_str` reads from the string, mirroring the
evaluation order: the CR loop reads positions `0 … countCR s`, then the
`&&`-chain short-circuits at the first failing test. -/
def classifierAccessList (s : List Char) : List Nat :=
  let i := countCR s
  List.range (i + 1) ++
    (if isxdigit (cppGet s i) = false then [i]
     else if isxdigit (cppGet s (i + 1)) = false then [i, i + 1]
     else if isblank (cppGet s (i + 2)) = false then [i, i + 1, i + 2]
     else if isxdigit (cppGet s (i + 3)) = false then [i, i + 1, i + 2, i + 3]
     else [i, i + 1, i + 2, i + 3, i + 4])

/-- The classifier contract as the spec words it (spec §4.1): after skipping
leading carriage returns, the first two characters are hex digits, the third
is blank, and the fourth and fifth are hex digits. -/
def specCond (s : List Char) : Prop :=
  let t := s.drop (countCR s)
  isxdigit (cppGet t 0) = true ∧ isxdigit (cppGet t 1) = true ∧
    isblank (cppGet t 2) = true ∧ isxdigit (cppGet t 3) = true ∧
    isxdigit (cppGet t 4) = true

instance (s : List Char) : Decidable (specCond s) := by
  unfold specCond; exact inferInstance

/-- The message `read_hex_str` / `read_hex_gen_dump` print when the input
file cannot be opened (`cout << "Unable to open file" << fname << endl`). -/
def errMsg (fname : List Char) : List Char :=
  "Unable to open file".toList ++ fname

/-- Result of `read_hex_str` (gen_hexdump.cpp lines 141-156): the returned
length, the accumulator string, and what was printed on the standard output
and standard error streams. -/
structure RdStrOut where
  ret : Nat
  acc : List Char
  stdout : List (List Char)
  stderr : List (List Char)
deriving DecidableEq

/-- `read_hex_str`: the file system is modelled by an `Option`: `none` when
the path cannot be opened, otherwise the file's lines.  On failure it prints
the message on standard output (the source uses `cout`) and returns 0 with
the accumulator untouched; otherwise it appends every line plus a newline
and returns the accumulator's length. -/
def read_hex_str (fname : List Char) (contents : Option (List (List Char)))
    (hex_str : List Char) : RdStrOut :=
  match contents with
  | none => { ret := 0, acc := hex_str, stdout := [errMsg fname], stderr := [] }
  | some lines =>
    let acc := hex_str ++ (lines.map (fun l => l ++ ['\n'])).flatten
    { ret := acc.length, acc := acc, stdout := [], stderr := [] }

/-- Result of `read_hex_gen_dump` (gen_hexdump.cpp lines 158-175): success
flag, final `gLinePrefix`, lines written to the output stream, and what was
printed on standard output and standard error. -/
structure RdGenOut where
  ret : Bool
  g : Nat
  sink : List (List Char)
  stdout : List (List Char)
  stderr : List (List Char)
deriving DecidableEq

/-- `read_hex_gen_dump`: on open failure print the message on standard
output (the source uses `cout`), return `false`, write nothing; otherwise
run `gen_hexdump` on every non-empty line. -/
def read_hex_gen_dump (fname : List Char) (contents : Option (List (List Char)))
    (g : Nat) : RdGenOut :=
  match contents with
  | none => { ret := false, g := g, sink := [], stdout := [errMsg fname], stderr := [] }
  | some lines =>
    let p := runLines g lines
    { ret := true, g := p.1, sink := p.2, stdout := [], stderr := [] }

/-- Digit count of a row after removing the 7-character offset prefix. -/
def rowDigitCount (row : List Char) : Nat :=
  ((row.drop 7).filter (fun c => isxdigit c)).length

/-- Number of complete (16-byte, i.e. 32-digit) rows in an output line
list. -/
def countComplete (rows : List (List Char)) : Nat :=
  (rows.filter (fun row => rowDigitCount row == 32)).length

/-- Total number of hex digits extracted from a list of input lines. -/
def totalDigits (ls : List (List Char)) : Nat :=
  (ls.map (fun l => (extractDigits l).length)).sum

/-- Strip a row as claim C4 describes: drop the 6-digit offset prefix and
remove all whitespace. -/
def stripRow (row : List Char) : List Char :=
  (row.drop 6).filter (fun c => !(c == ' '))

/-- First line of the example in the header comment of gen_hexdump.cpp. -/
def exLine1 : List Char :=
  "c2ef0a00 00918843 e138a72b 08004500 003cd373 40004006 58ac0202 020a0a00".toList

/-- Second line of the example in the header comment of gen_hexdump.cpp. -/
def exLine2 : List Char :=
  "0091aae6 0016b446 7f860000 0000a002 39082c11 00000204 05b40402 080acf40".toList

/-- Third line of the example in the header comment of gen_hexdump.cpp. -/
def exLine3 : List Char :=
  "26400000 00000103 0307".toList

/-- The whole example input of the header comment, as the single-packet mode
(`-n -i`) assembles it: lines joined with newlines. -/
def exAll : List Char :=
  exLine1 ++ '\n' :: exLine2 ++ '\n' :: exLine3 ++ ['\n']

/-! ### Basic lemmas about the character classifiers and the offset field -/

theorem isxdigit_cppGet_lt (s : List Char) (j : Nat) (h : isxdigit (cppGet s j) = true) :
    j < s.length := by
  by_contra hge
  push_neg at hge
  rw [cppGet, List.getD_eq_default _ _ hge] at h
  exact absurd h (by decide)

theorem isblank_cppGet_lt (s : List Char) (j : Nat) (h : isblank (cppGet s j) = true) :
    j < s.length := by
  by_contra hge
  push_neg at hge
  rw [cppGet, List.getD_eq_default _ _ hge] at h
  exact absurd h (by decide)

theorem takeWhile_len_le (p : Char → Bool) :
    ∀ s : List Char, (s.takeWhile p).length ≤ s.length := by
  intro s
  induction s with
  | nil => simp
  | cons c t ih =>
    by_cases h : p c
    · simp [List.takeWhile_cons, h]; omega
    · simp [List.takeWhile_cons, h]

theorem countCR_le (s : List Char) : countCR s ≤ s.length :=
  takeWhile_len_le _ s

theorem offsetPfx_len_ge (g : Nat) : 7 ≤ (offsetPfx g).length := by
  unfold offsetPfx offsetDigits
  simp only [List.length_append, List.length_replicate, List.length_cons, List.length_nil]
  omega

theorem toHexAux_len_le (f : Nat) : ∀ (k n : Nat), n < 16 ^ k → (toHexAux f n).length ≤ k := by
  induction f with
  | zero => intro k n _; simp [toHexAux]
  | succ f ih =>
    intro k n hn
    match n with
    | 0 => simp [toHexAux]
    | n + 1 =>
      match k with
      | 0 => omega
      | k + 1 =>
        rw [toHexAux]
        have hdiv : (n + 1) / 16 < 16 ^ k := by
          rw [Nat.div_lt_iff_lt_mul (by norm_num)]
          calc n + 1 < 16 ^ (k + 1) := hn
          _ = 16 ^ k * 16 := by rw [pow_succ]
        have := ih k ((n + 1) / 16) hdiv
        simp only [List.length_append, List.length_cons, List.length_nil]
        omega

theorem offsetDigits_len (g : Nat) (hg : g < 16777216) : (offsetDigits g).length = 6 := by
  have hle : (toHexU32 g).length ≤ 6 := by
    unfold toHexU32
    split
    · simp
    · exact toHexAux_len_le 8 6 g (by norm_num at hg ⊢; omega)
  unfold offsetDigits
  simp only [List.length_append, List.length_replicate]
  omega

theorem offsetPfx_len (g : Nat) (hg : g < 16777216) : (offsetPfx g).length = 7 := by
  unfold offsetPfx
  simp [offsetDigits_len g hg]

/-! ### Structure of row bodies -/

theorem twoStepInduction {motive : List Char → Prop} (h0 : motive [])
    (h1 : ∀ d, motive [d])
    (h2 : ∀ d1 d2 rest, motive rest → motive (d1 :: d2 :: rest)) :
    ∀ r, motive r
  | [] => h0
  | [d] => h1 d
  | d1 :: d2 :: rest => h2 d1 d2 rest (twoStepInduction h0 h1 h2 rest)

theorem rowBodyAux_append_even (d : Char) :
    ∀ r, r.length % 2 = 0 → ∀ k, rowBodyAux k (r ++ [d]) = rowBodyAux k r ++ [d] := by
  intro r
  induction r using twoStepInduction with
  | h0 => intro _ k; simp [rowBodyAux]
  | h1 d1 => intro h; simp at h
  | h2 d1 d2 rest ih =>
    intro h k
    simp only [List.length_cons] at h
    have hr : rest.length % 2 = 0 := by omega
    have he : (d1 :: d2 :: rest) ++ [d] = d1 :: d2 :: (rest ++ [d]) := rfl
    rw [he]
    show d1 :: d2 :: (sepAfterByte (k + 1) ++ rowBodyAux (k + 1) (rest ++ [d])) = _
    rw [ih hr (k + 1)]
    show _ = (d1 :: d2 :: (sepAfterByte (k + 1) ++ rowBodyAux (k + 1) rest)) ++ [d]
    simp

theorem rowBodyAux_append_odd (d : Char) :
    ∀ r, r.length % 2 = 1 → ∀ k,
      rowBodyAux k (r ++ [d]) =
        rowBodyAux k r ++ [d] ++ sepAfterByte (k + (r.length + 1) / 2) := by
  intro r
  induction r using twoStepInduction with
  | h0 => intro h; simp at h
  | h1 d1 => intro _ k; simp [rowBodyAux]
  | h2 d1 d2 rest ih =>
    intro h k
    simp only [List.length_cons] at h
    have hr : rest.length % 2 = 1 := by omega
    have he : (d1 :: d2 :: rest) ++ [d] = d1 :: d2 :: (rest ++ [d]) := rfl
    rw [he]
    show d1 :: d2 :: (sepAfterByte (k + 1) ++ rowBodyAux (k + 1) (rest ++ [d])) = _
    rw [ih hr (k + 1)]
    show _ = (d1 :: d2 :: (sepAfterByte (k + 1) ++ rowBodyAux (k + 1) rest)) ++ [d] ++ _
    have hk : k + 1 + (rest.length + 1) / 2 = k + (rest.length + 1 + 1 + 1) / 2 := by omega
    rw [hk]
    simp

theorem rowBody_append_even (d : Char) (r : List Char) (h : r.length % 2 = 0) :
    rowBody (r ++ [d]) = rowBody r ++ [d] :=
  rowBodyAux_append_even d r h 0

theorem rowBody_append_odd (d : Char) (r : List Char) (h : r.length % 2 = 1) :
    rowBody (r ++ [d]) = rowBody r ++ [d] ++ sepAfterByte ((r.length + 1) / 2) := by
  have := rowBodyAux_append_odd d r h 0
  simpa [rowBody] using this

theorem stepDigit_mkState (g : Nat) (out : List (List Char)) (r : List Char) (d : Char)
    (hlen : r.length < 32) :
    stepDigit (mkState g out r) d =
      if r.length = 31 then
        mkState ((g + 16) % 4294967296) (out ++ [offsetPfx g ++ rowBody (r ++ [d])]) []
      else mkState g out (r ++ [d]) := by
  have hp7 : 7 ≤ (offsetPfx g).length := offsetPfx_len_ge g
  have hL : 7 ≤ (offsetPfx g ++ rowBody r).length := by
    rw [List.length_append]; omega
  rcases Nat.mod_two_eq_zero_or_one r.length with hpar | hpar
  · -- even length: the digit is appended, nothing else happens
    have h31 : r.length ≠ 31 := by omega
    rw [if_neg h31]
    have hcond : ¬ ((offsetPfx g ++ rowBody r).length + 1 -
        ((offsetPfx g ++ rowBody r).length - 1 - r.length % 2) > 2) := by
      rw [hpar]; omega
    have hnum : ¬ (r.length / 2 = 16) := by omega
    simp only [stepDigit, mkState, if_neg hcond, if_neg hnum]
    rw [FmtState.mk.injEq]
    refine ⟨?_, ?_, ?_, ?_, rfl, rfl⟩
    · rw [rowBody_append_even d r hpar, ← List.append_assoc]
    · rw [rowBody_append_even d r hpar]
      simp only [List.length_append, List.length_cons, List.length_nil]
      omega
    · rw [rowBody_append_even d r hpar]
      simp only [List.length_append, List.length_cons, List.length_nil]
      omega
    · simp only [List.length_append, List.length_cons, List.length_nil]
      omega
  · -- odd length: the incoming digit completes a byte
    have hcond : (offsetPfx g ++ rowBody r).length + 1 -
        ((offsetPfx g ++ rowBody r).length - 1 - r.length % 2) > 2 := by
      rw [hpar]; omega
    have hhalf : (r.length + 1) / 2 = r.length / 2 + 1 := by omega
    by_cases h31 : r.length = 31
    · -- byte 16 completes: the row is flushed
      have hn8 : ¬ (r.length / 2 + 1 = 8) := by omega
      have hrow : rowBody (r ++ [d]) = rowBody r ++ [d] := by
        rw [rowBody_append_odd d r hpar, hhalf, show r.length / 2 + 1 = 16 by omega]
        simp [sepAfterByte]
      rw [if_pos h31]
      simp only [stepDigit, mkState, if_pos hcond, if_neg hn8,
        if_neg (show ¬ (r.length / 2 + 1 ≠ 16) by omega),
        if_pos (show r.length / 2 + 1 = 16 by omega)]
      rw [FmtState.mk.injEq]
      refine ⟨?_, ?_, ?_, rfl, rfl, ?_⟩
      · simp [rowBody, rowBodyAux]
      · simp [rowBody, rowBodyAux]
      · simp [rowBody, rowBodyAux]
      · rw [hrow, ← List.append_assoc]
    · -- a byte before the 16th completes: separators are appended
      have hn16 : r.length / 2 + 1 ≠ 16 := by omega
      rw [if_neg h31]
      have hrow : rowBody (r ++ [d]) =
          rowBody r ++ [d] ++ sepAfterByte (r.length / 2 + 1) := by
        rw [rowBody_append_odd d r hpar, hhalf]
      by_cases h8 : r.length / 2 + 1 = 8
      · simp only [stepDigit, mkState, if_pos hcond, if_pos h8, if_pos hn16,
          if_neg hn16]
        rw [FmtState.mk.injEq]
        refine ⟨?_, ?_, ?_, ?_, rfl, rfl⟩
        · rw [hrow, h8]
          simp [sepAfterByte]
        · rw [hrow, h8]
          simp only [sepAfterByte, List.length_append, List.length_cons, List.length_nil]
          simp
          omega
        · rw [hrow, h8]
          simp only [sepAfterByte, List.length_append, List.length_cons, List.length_nil]
          simp
          omega
        · simp only [List.length_append, List.length_cons, List.length_nil]
          omega
      · simp only [stepDigit, mkState, if_pos hcond, if_neg h8, if_pos hn16,
          if_neg hn16]
        rw [FmtState.mk.injEq]
        refine ⟨?_, ?_, ?_, ?_, rfl, rfl⟩
        · rw [hrow]
          simp [sepAfterByte, h8, hn16]
        · rw [hrow]
          simp only [sepAfterByte, List.length_append, List.length_cons, List.length_nil]
          simp [h8, hn16]
          omega
        · rw [hrow]
          simp only [sepAfterByte, List.length_append, List.length_cons, List.length_nil]
          simp [h8, hn16]
          omega
        · simp only [List.length_append, List.length_cons, List.length_nil]
          omega

theorem foldl_stepChar_eq (s : List Char) :
    ∀ st : FmtState, s.foldl stepChar st = (extractDigits s).foldl stepDigit st := by
  induction s with
  | nil => intro st; simp [extractDigits]
  | cons c t ih =>
    intro st
    by_cases h : isxdigit (tolowerC c) = true
    · have he : extractDigits (c :: t) = tolowerC c :: extractDigits t := by
        simp [extractDigits, List.filter_cons, h]
      have hs : stepChar st c = stepDigit st (tolowerC c) := by
        simp [stepChar, h]
      rw [List.foldl_cons, he, List.foldl_cons, hs]
      exact ih _
    · have he : extractDigits (c :: t) = extractDigits t := by
        simp [extractDigits, List.filter_cons, h]
      have hs : stepChar st c = st := by
        simp [stepChar, h]
      rw [List.foldl_cons, he, hs]
      exact ih _

theorem foldl_stepDigit_absRun :
    ∀ (D : List Char) (g : Nat) (out : List (List Char)) (r : List Char), r.length < 32 →
      D.foldl stepDigit (mkState g out r) =
        mkState (absRun g out r D).1 (absRun g out r D).2.1 (absRun g out r D).2.2 := by
  intro D
  induction D with
  | nil => intro g out r h; simp [absRun]
  | cons d ds ih =>
    intro g out r h
    rw [List.foldl_cons, stepDigit_mkState g out r d h]
    by_cases h31 : r.length = 31
    · rw [if_pos h31, ih _ _ _ (by simp)]
      have ha : absRun g out r (d :: ds) =
          absRun ((g + 16) % 4294967296)
            (out ++ [offsetPfx g ++ rowBody (r ++ [d])]) [] ds := by
        simp only [absRun, if_pos h31]
      rw [ha]
    · have hlt : (r ++ [d]).length < 32 := by
        simp only [List.length_append, List.length_cons, List.length_nil]
        omega
      rw [if_neg h31, ih _ _ _ hlt]
      have ha : absRun g out r (d :: ds) = absRun g out (r ++ [d]) ds := by
        simp only [absRun, if_neg h31]
      rw [ha]

theorem absRun_small :
    ∀ (ds : List Char) (g : Nat) (out : List (List Char)) (r : List Char),
      r.length + ds.length < 32 → absRun g out r ds = (g, out, r ++ ds) := by
  intro ds
  induction ds with
  | nil => intro g out r h; simp [absRun]
  | cons d t ih =>
    intro g out r h
    simp only [List.length_cons] at h
    simp only [absRun, if_neg (by omega : ¬ r.length = 31)]
    have hlt : (r ++ [d]).length + t.length < 32 := by
      simp only [List.length_append, List.length_cons, List.length_nil]
      omega
    rw [ih g out (r ++ [d]) hlt]
    simp

theorem absRun_fill :
    ∀ (ds : List Char) (g : Nat) (out : List (List Char)) (r : List Char),
      r.length < 32 → 32 ≤ r.length + ds.length →
      absRun g out r ds =
        absRun ((g + 16) % 4294967296)
          (out ++ [offsetPfx g ++ rowBody (r ++ ds.take (32 - r.length))]) []
          (ds.drop (32 - r.length)) := by
  intro ds
  induction ds with
  | nil =>
    intro g out r h1 h2
    simp only [List.length_nil, Nat.add_zero] at h2
    exact absurd h1 (by omega)
  | cons d t ih =>
    intro g out r h1 h2
    simp only [List.length_cons] at h2
    by_cases h31 : r.length = 31
    · simp only [absRun, if_pos h31, h31]
      norm_num
    · simp only [absRun, if_neg h31]
      have ha : (r ++ [d]).length < 32 := by
        simp only [List.length_append, List.length_cons, List.length_nil]
        omega
      have hb : 32 ≤ (r ++ [d]).length + t.length := by
        simp only [List.length_append, List.length_cons, List.length_nil]
        omega
      rw [ih g out (r ++ [d]) ha hb]
      simp only [List.length_append, List.length_cons, List.length_nil]
      rw [show 32 - r.length = (32 - (r.length + 1)) + 1 by omega]
      simp only [List.take_succ_cons, List.drop_succ_cons]
      rw [List.append_assoc]
      rfl

theorem absRun_chunks :
    ∀ (n : Nat) (ds : List Char) (g : Nat) (out : List (List Char)),
      ds.length = n → g < 4294967296 →
      absRun g out [] ds =
        ((g + 16 * (n / 32)) % 4294967296,
         out ++ (List.range (n / 32)).map
           (fun i => offsetPfx ((g + 16 * i) % 4294967296) ++
                      rowBody ((ds.drop (32 * i)).take 32)),
         ds.drop (32 * (n / 32))) := by
  intro n
  induction n using Nat.strong_induction_on with
  | _ n ih =>
    intro ds g out hlen hg
    by_cases hsmall : n < 32
    · have hlt : ([] : List Char).length + ds.length < 32 := by
        simp [hlen]; omega
      rw [absRun_small ds g out [] hlt]
      have h0 : n / 32 = 0 := by omega
      simp [h0, hlen, Nat.mod_eq_of_lt hg]
    · push_neg at hsmall
      have hb : 32 ≤ ([] : List Char).length + ds.length := by
        simp [hlen]; omega
      rw [absRun_fill ds g out [] (by simp) hb]
      simp only [List.nil_append, List.length_nil, Nat.sub_zero]
      have hg2 : (g + 16) % 4294967296 < 4294967296 := Nat.mod_lt _ (by norm_num)
      have hlen2 : (ds.drop 32).length = n - 32 := by
        simp [hlen]
      rw [ih (n - 32) (by omega) (ds.drop 32) ((g + 16) % 4294967296)
        (out ++ [offsetPfx g ++ rowBody (ds.take 32)]) hlen2 hg2]
      have hdiv : n / 32 = (n - 32) / 32 + 1 := by omega
      rw [hdiv, Prod.mk.injEq, Prod.mk.injEq]
      refine ⟨?_, ?_, ?_⟩
      · rw [Nat.mod_add_mod]
        congr 1
        omega
      · rw [List.range_succ_eq_map, List.map_cons, List.map_map, List.append_assoc]
        congr 1
        rw [List.singleton_append]
        congr 1
        · simp only [Nat.mul_zero, Nat.add_zero, Nat.mod_eq_of_lt hg, List.drop_zero]
        · refine List.map_congr_left ?_
          intro i _
          simp only [Function.comp_apply, Nat.mod_add_mod, List.drop_drop]
          have e1 : g + 16 + 16 * i = g + 16 * (i + 1) := by omega
          have e2 : 32 * i + 32 = 32 * (i + 1) := by omega
          have e3 : (Nat.succ i : Nat) = i + 1 := rfl
          rw [e3, ← e1, ← e2, Nat.add_comm 32 (32 * i)]
      · rw [List.drop_drop]
        congr 1
        omega

theorem gen_hexdump_eq (g : Nat) (s : List Char) (hg : g < 4294967296) :
    gen_hexdump g s =
      if preHex s then
        ((g + 16 * ((extractDigits s).length / 32)) % 4294967296,
         hexRows g (extractDigits s))
      else (0, []) := by
  by_cases hp : preHex s
  · rw [if_pos hp]
    have hm : preprocess_hex_str s g = (true, g) := by
      simp [preprocess_hex_str, hp]
    have hst0 : FmtState.mk (offsetPfx g) (offsetPfx g).length
        ((offsetPfx g).length - 1) 0 g [] = mkState g [] [] := by
      simp [mkState, rowBody, rowBodyAux]
    simp only [gen_hexdump, hm]
    rw [hst0, foldl_stepChar_eq, foldl_stepDigit_absRun _ _ _ _ (by simp),
      absRun_chunks (extractDigits s).length (extractDigits s) g [] rfl hg]
    simp only [mkState]
    set D := extractDigits s with hD
    set N := D.length / 32 with hN
    set gf := (g + 16 * N) % 4294967296 with hgf
    set rf := D.drop (32 * N) with hrf
    have hrfLen : rf.length = D.length % 32 := by
      rw [hrf, List.length_drop]
      omega
    have hL : 7 ≤ (offsetPfx gf ++ rowBody rf).length := by
      have := offsetPfx_len_ge gf
      rw [List.length_append]
      omega
    by_cases hmod : D.length % 32 = 0
    · have hc : ¬ ((decide (rf.length / 2 ≠ 0) ||
          decide ((offsetPfx gf ++ rowBody rf).length -
            ((offsetPfx gf ++ rowBody rf).length - 1 - rf.length % 2) > 1)) = true) := by
        simp only [Bool.or_eq_true, decide_eq_true_eq]
        push_neg
        constructor
        · omega
        · omega
      rw [if_neg hc]
      rw [hexRows, if_pos hmod]
      simp
    · have hc : (decide (rf.length / 2 ≠ 0) ||
          decide ((offsetPfx gf ++ rowBody rf).length -
            ((offsetPfx gf ++ rowBody rf).length - 1 - rf.length % 2) > 1)) = true := by
        simp only [Bool.or_eq_true, decide_eq_true_eq]
        omega
      rw [if_pos hc]
      rw [hexRows, if_neg hmod]
      simp only [List.nil_append]
  · rw [if_neg hp]
    have hm : preprocess_hex_str s g = (false, 0) := by
      simp [preprocess_hex_str, hp]
    rw [gen_hexdump, hm]

/-! ### Byte groups and the claim-level rendering -/

theorem byteGroups_cons_ne_nil (x : Char) (xs : List Char) :
    ∃ a l, byteGroups (x :: xs) = a :: l := by
  cases xs with
  | nil => exact ⟨[x], [], rfl⟩
  | cons y ys => exact ⟨[x, y], byteGroups ys, rfl⟩

theorem byteGroups_len : ∀ r : List Char, (byteGroups r).length = (r.length + 1) / 2 := by
  intro r
  induction r using twoStepInduction with
  | h0 => simp [byteGroups]
  | h1 d => simp [byteGroups]
  | h2 d1 d2 rest ih =>
    simp only [byteGroups, List.length_cons, ih]
    omega

theorem byteGroups_pairs : ∀ r : List Char, r.length % 2 = 0 →
    ∀ gp ∈ byteGroups r, gp.length = 2 := by
  intro r
  induction r using twoStepInduction with
  | h0 => intro _ gp hgp; simp [byteGroups] at hgp
  | h1 d => intro h; simp at h
  | h2 d1 d2 rest ih =>
    intro h gp hgp
    simp only [List.length_cons] at h
    simp only [byteGroups, List.mem_cons] at hgp
    rcases hgp with hgp | hgp
    · rw [hgp]; rfl
    · exact ih (by omega) gp hgp

theorem sepBetween_eq (b : Nat) (hb : b ≠ 16) :
    (if b = 8 then [' ', ' '] else [' ']) = sepAfterByte b := by
  by_cases h8 : b = 8
  · simp [sepAfterByte, h8]
  · simp [sepAfterByte, h8, hb]

theorem rowBodyAux_renderSpec : ∀ r k, r ≠ [] → k + (r.length + 1) / 2 ≤ 16 →
    rowBodyAux k r = renderSpec (k + 1) (byteGroups r) ++
      (if r.length % 2 = 0 then sepAfterByte (k + r.length / 2) else []) := by
  intro r
  induction r using twoStepInduction with
  | h0 => intro k h; exact absurd rfl h
  | h1 d => intro k _ _; simp [rowBodyAux, byteGroups, renderSpec]
  | h2 d1 d2 rest ih =>
    intro k hne hbound
    simp only [List.length_cons] at hbound
    cases rest with
    | nil =>
      show d1 :: d2 :: (sepAfterByte (k + 1) ++ rowBodyAux (k + 1) []) = _
      simp [rowBodyAux, byteGroups, renderSpec]
    | cons e rest2 =>
      have hb2 : k + 1 + ((e :: rest2).length + 1) / 2 ≤ 16 := by
        simp only [List.length_cons] at hbound ⊢
        omega
      have hk16 : k + 1 ≠ 16 := by
        simp only [List.length_cons] at hbound
        omega
      obtain ⟨gp2, gps, hbg⟩ := byteGroups_cons_ne_nil e rest2
      have hlhs : rowBodyAux k (d1 :: d2 :: e :: rest2) =
          d1 :: d2 :: (sepAfterByte (k + 1) ++ rowBodyAux (k + 1) (e :: rest2)) := rfl
      have hrhs : byteGroups (d1 :: d2 :: e :: rest2) = [d1, d2] :: gp2 :: gps := by
        rw [show byteGroups (d1 :: d2 :: e :: rest2) =
          [d1, d2] :: byteGroups (e :: rest2) from rfl, hbg]
      rw [hlhs, ih (k + 1) (by simp) hb2, hrhs, hbg]
      simp only [renderSpec]
      rw [sepBetween_eq (k + 1) hk16]
      have htr : (if (e :: rest2).length % 2 = 0 then
            sepAfterByte (k + 1 + (e :: rest2).length / 2) else []) =
          (if (d1 :: d2 :: e :: rest2).length % 2 = 0 then
            sepAfterByte (k + (d1 :: d2 :: e :: rest2).length / 2) else []) := by
        simp only [List.length_cons]
        by_cases hp : (rest2.length + 1) % 2 = 0
        · rw [if_pos hp, if_pos (by omega)]
          congr 1
          omega
        · rw [if_neg hp, if_neg (by omega)]
      rw [htr]
      simp [List.append_assoc]

theorem rowBody_renderSpec (r : List Char) (h1 : r ≠ []) (h2 : r.length ≤ 32) :
    rowBody r = renderSpec 1 (byteGroups r) ++
      (if r.length % 2 = 0 then sepAfterByte (r.length / 2) else []) := by
  have := rowBodyAux_renderSpec r 0 h1 (by omega)
  simpa [rowBody] using this

/-! ### Filtering row bodies back to their digits -/

theorem isxdigit_ne_space (c : Char) (h : isxdigit c = true) : (c == ' ') = false := by
  rcases hc : c == ' ' with _ | _
  · rfl
  · rw [beq_iff_eq] at hc
    subst hc
    exact absurd h (by decide)

theorem sepAfterByte_filter_x (b : Nat) :
    (sepAfterByte b).filter (fun c => isxdigit c) = [] := by
  unfold sepAfterByte
  by_cases h8 : b = 8 <;> by_cases h16 : b ≠ 16 <;> simp [h8, h16, isxdigit]

theorem sepAfterByte_filter_sp (b : Nat) :
    (sepAfterByte b).filter (fun c => !(c == ' ')) = [] := by
  unfold sepAfterByte
  by_cases h8 : b = 8 <;> by_cases h16 : b ≠ 16 <;> simp [h8, h16]

theorem rowBodyAux_filter_x : ∀ r k, (∀ c ∈ r, isxdigit c = true) →
    (rowBodyAux k r).filter (fun c => isxdigit c) = r := by
  intro r
  induction r using twoStepInduction with
  | h0 => intro k _; rfl
  | h1 d =>
    intro k h
    have hd := h d (by simp)
    simp [rowBodyAux, List.filter, hd]
  | h2 d1 d2 rest ih =>
    intro k h
    have hd1 := h d1 (by simp)
    have hd2 := h d2 (by simp)
    have hr : ∀ c ∈ rest, isxdigit c = true := by
      intro c hc
      exact h c (by simp [hc])
    show (d1 :: d2 :: (sepAfterByte (k + 1) ++ rowBodyAux (k + 1) rest)).filter
        (fun c => isxdigit c) = _
    simp only [List.filter_cons, hd1, hd2, if_pos, List.filter_append,
      sepAfterByte_filter_x, List.nil_append, ih (k + 1) hr]

theorem rowBodyAux_filter_sp : ∀ r k, (∀ c ∈ r, isxdigit c = true) →
    (rowBodyAux k r).filter (fun c => !(c == ' ')) = r := by
  intro r
  induction r using twoStepInduction with
  | h0 => intro k _; rfl
  | h1 d =>
    intro k h
    have hd := isxdigit_ne_space d (h d (by simp))
    simp [rowBodyAux, List.filter, hd]
  | h2 d1 d2 rest ih =>
    intro k h
    have hd1 := isxdigit_ne_space d1 (h d1 (by simp))
    have hd2 := isxdigit_ne_space d2 (h d2 (by simp))
    have hr : ∀ c ∈ rest, isxdigit c = true := by
      intro c hc
      exact h c (by simp [hc])
    show (d1 :: d2 :: (sepAfterByte (k + 1) ++ rowBodyAux (k + 1) rest)).filter
        (fun c => !(c == ' ')) = _
    simp only [List.filter_cons, hd1, hd2, Bool.not_false, if_pos, List.filter_append,
      sepAfterByte_filter_sp, List.nil_append, ih (k + 1) hr]

theorem extractDigits_all_x (s : List Char) : ∀ c ∈ extractDigits s, isxdigit c = true := by
  intro c hc
  exact List.of_mem_filter hc

/-! ### List access helpers -/

theorem getD_app_lt {α : Type} (d : α) : ∀ (A B : List α) (n : Nat), n < A.length →
    (A ++ B).getD n d = A.getD n d := by
  intro A
  induction A with
  | nil => intro B n h; simp at h
  | cons a t ih =>
    intro B n h
    cases n with
    | zero => rfl
    | succ m =>
      simp only [List.length_cons] at h
      show (t ++ B).getD m d = t.getD m d
      exact ih B m (by omega)

theorem getD_app_ge {α : Type} (d : α) : ∀ (A B : List α) (n : Nat), A.length ≤ n →
    (A ++ B).getD n d = B.getD (n - A.length) d := by
  intro A
  induction A with
  | nil => intro B n h; simp
  | cons a t ih =>
    intro B n h
    cases n with
    | zero => simp at h
    | succ m =>
      simp only [List.length_cons] at h
      show (t ++ B).getD m d = _
      rw [ih B m (by omega)]
      simp only [List.length_cons]
      congr 1
      omega

theorem getD_map_range (f : Nat → List Char) (N n : Nat) (h : n < N) :
    ((List.range N).map f).getD n [] = f n := by
  rw [List.getD_eq_getElem?_getD, List.getElem?_map, List.getElem?_range h]
  rfl

theorem getLastD_irrel {α : Type} (l : List α) (h : l ≠ []) (d1 d2 : α) :
    l.getLastD d1 = l.getLastD d2 := by
  cases l with
  | nil => exact absurd rfl h
  | cons a t => rfl

theorem getLastD_app {α : Type} : ∀ (A B : List α) (d : α), B ≠ [] →
    (A ++ B).getLastD d = B.getLastD d := by
  intro A
  induction A with
  | nil => intro B d _; rfl
  | cons a t ih =>
    intro B d h
    rw [List.cons_append, List.getLastD_cons, ih B a h]
    exact getLastD_irrel B h a d

theorem getLastD_concat {α : Type} (l : List α) (x d : α) :
    (l ++ [x]).getLastD d = x := by
  rw [getLastD_app l [x] d (by simp)]
  rfl

/-! ### Row-level facts about the emitted lines -/

theorem hexRows_length (g : Nat) (D : List Char) :
    (hexRows g D).length = D.length / 32 + (if D.length % 32 = 0 then 0 else 1) := by
  unfold hexRows
  by_cases h : D.length % 32 = 0
  · rw [if_pos h, if_pos h]
    simp
  · rw [if_neg h, if_neg h]
    simp

theorem hexRows_getD (g : Nat) (D : List Char) (j : Nat) (hj : j < (hexRows g D).length) :
    (hexRows g D).getD j [] =
      offsetPfx ((g + 16 * j) % 4294967296) ++ rowBody ((D.drop (32 * j)).take 32) := by
  rw [hexRows_length] at hj
  by_cases hlt : j < D.length / 32
  · unfold hexRows
    rw [getD_app_lt _ _ _ j (by simp [hlt]), getD_map_range _ _ _ hlt]
  · have hmod : ¬ (D.length % 32 = 0) := by
      by_contra hc
      rw [if_pos hc] at hj
      omega
    have hj2 : j = D.length / 32 := by
      rw [if_neg hmod] at hj
      omega
    unfold hexRows
    rw [if_neg hmod, getD_app_ge _ _ _ j (by simp [hj2])]
    simp only [List.length_map, List.length_range, hj2, Nat.sub_self, List.getD_cons_zero]
    congr 1
    rw [List.take_of_length_le]
    rw [List.length_drop]
    omega

theorem chunk_mem_sub (D : List Char) (j : Nat) :
    ∀ c ∈ (D.drop (32 * j)).take 32, c ∈ D := by
  intro c hc
  exact List.mem_of_mem_drop (List.mem_of_mem_take hc)

theorem chunk_len_full (D : List Char) (j : Nat) (hj : j < D.length / 32) :
    ((D.drop (32 * j)).take 32).length = 32 := by
  rw [List.length_take, List.length_drop]
  omega

theorem row_digit_filter (g : Nat) (r : List Char) (hg : g < 16777216)
    (hr : ∀ c ∈ r, isxdigit c = true) :
    ((offsetPfx g ++ rowBody r).drop 7).filter (fun c => isxdigit c) = r := by
  have h7 := offsetPfx_len g hg
  rw [← h7, List.drop_left, rowBody]
  exact rowBodyAux_filter_x r 0 hr

theorem stripRow_row (g : Nat) (r : List Char) (hg : g < 16777216)
    (hr : ∀ c ∈ r, isxdigit c = true) :
    stripRow (offsetPfx g ++ rowBody r) = r := by
  have h6 := offsetDigits_len g hg
  unfold stripRow
  rw [offsetPfx, List.append_assoc, ← h6, List.drop_left]
  simp only [List.filter_cons, List.filter_append]
  have : ((' ' == ' ') = true) := by decide
  simp only [List.singleton_append, List.filter_cons, this, Bool.not_true, Bool.false_eq_true,
    not_false_eq_true, if_neg]
  rw [rowBody]
  exact rowBodyAux_filter_sp r 0 hr

theorem chunks_flatten : ∀ (n : Nat) (D : List Char), D.length = n →
    ((List.range (n / 32)).map (fun i => (D.drop (32 * i)).take 32)).flatten
      ++ D.drop (32 * (n / 32)) = D := by
  intro n
  induction n using Nat.strong_induction_on with
  | _ n ih =>
    intro D hlen
    by_cases hsmall : n < 32
    · have h0 : n / 32 = 0 := by omega
      simp [h0]
    · push_neg at hsmall
      have hdiv : n / 32 = (n - 32) / 32 + 1 := by omega
      rw [hdiv, List.range_succ_eq_map, List.map_cons, List.map_map]
      simp only [Nat.mul_zero, List.drop_zero, List.flatten_cons]
      have hmap : (List.range ((n - 32) / 32)).map
          ((fun i => (D.drop (32 * i)).take 32) ∘ Nat.succ) =
          (List.range ((n - 32) / 32)).map
          (fun i => ((D.drop 32).drop (32 * i)).take 32) := by
        refine List.map_congr_left ?_
        intro i _
        simp only [Function.comp_apply, List.drop_drop]
        congr 2
        omega
      rw [hmap, List.append_assoc]
      have hres : D.drop (32 * ((n - 32) / 32 + 1)) =
          (D.drop 32).drop (32 * ((n - 32) / 32)) := by
        rw [List.drop_drop]
        congr 1
        omega
      rw [hres]
      rw [ih (n - 32) (by omega) (D.drop 32) (by simp [hlen])]
      exact List.take_append_drop 32 D

theorem cppGet_drop : ∀ (n : Nat) (s : List Char) (m : Nat),
    cppGet (s.drop n) m = cppGet s (n + m) := by
  intro n
  induction n with
  | zero => intro s m; simp [cppGet]
  | succ k ih =>
    intro s m
    cases s with
    | nil => simp [cppGet]
    | cons c t =>
      show cppGet (t.drop k) m = _
      rw [ih t m]
      show t.getD (k + m) _ = (c :: t).getD (k + 1 + m) _
      rw [show k + 1 + m = (k + m) + 1 by omega]
      rfl

/-- Claim C5: the classifier returns true exactly when, after skipping leading
carriage returns, the line starts with two hex digits, a blank and two more hex
digits; whenever it returns false it resets `gLinePrefix` to 0 and
`gen_hexdump` writes nothing for that line. -/
theorem claim_C5 (s : List Char) (g : Nat) :
    ((preprocess_hex_str s g).1 = true ↔ specCond s) ∧
    ((preprocess_hex_str s g).1 = false →
      (preprocess_hex_str s g).2 = 0 ∧ gen_hexdump g s = (0, [])) := by
  have hiff : preHex s = true ↔ specCond s := by
    unfold preHex specCond
    simp only [Bool.and_eq_true, cppGet_drop, Nat.add_zero]
    tauto
  by_cases hp : preHex s
  · have h1 : (preprocess_hex_str s g).1 = true := by
      simp [preprocess_hex_str, hp]
    constructor
    · exact ⟨fun _ => hiff.mp hp, fun _ => h1⟩
    · intro hfalse
      rw [h1] at hfalse
      exact absurd hfalse (by simp)
  · have h0 : (preprocess_hex_str s g).1 = false := by
      simp [preprocess_hex_str, hp]
    constructor
    · constructor
      · intro hc
        rw [h0] at hc
        exact absurd hc (by simp)
      · intro hsc
        exact absurd (hiff.mpr hsc) hp
    · intro _
      constructor
      · simp [preprocess_hex_str, hp]
      · have hm : preprocess_hex_str s g = (false, 0) := by
          simp [preprocess_hex_str, hp]
        rw [gen_hexdump, hm]

/-- Claim C6: a line shorter than 5 characters after CR-skipping is classified
non-hex, and every string position the classifier reads is at most the string
length (position `length` being the C++11 null terminator, never beyond it). -/
theorem claim_C6 (s : List Char) (h : s.length < countCR s + 5) :
    preHex s = false ∧ ∀ j ∈ classifierAccessList s, j ≤ s.length := by
  have hcr := countCR_le s
  constructor
  · by_contra hc
    rw [Bool.not_eq_false] at hc
    unfold preHex at hc
    simp only [Bool.and_eq_true] at hc
    have := isxdigit_cppGet_lt s (countCR s + 4) hc.2
    omega
  · intro j hj
    simp only [classifierAccessList, List.mem_append, List.mem_range] at hj
    rcases hj with hj | hj
    · omega
    · by_cases h1 : isxdigit (cppGet s (countCR s)) = false
      · rw [if_pos h1] at hj
        simp only [List.mem_singleton] at hj
        omega
      · have t1 := isxdigit_cppGet_lt s (countCR s) (by rwa [Bool.not_eq_false] at h1)
        rw [if_neg h1] at hj
        by_cases h2 : isxdigit (cppGet s (countCR s + 1)) = false
        · rw [if_pos h2] at hj
          simp at hj
          rcases hj with hj | hj <;> omega
        · have t2 := isxdigit_cppGet_lt s (countCR s + 1) (by rwa [Bool.not_eq_false] at h2)
          rw [if_neg h2] at hj
          by_cases h3 : isblank (cppGet s (countCR s + 2)) = false
          · rw [if_pos h3] at hj
            simp at hj
            rcases hj with hj | hj | hj <;> omega
          · have t3 := isblank_cppGet_lt s (countCR s + 2) (by rwa [Bool.not_eq_false] at h3)
            rw [if_neg h3] at hj
            by_cases h4 : isxdigit (cppGet s (countCR s + 3)) = false
            · rw [if_pos h4] at hj
              simp at hj
              rcases hj with hj | hj | hj | hj <;> omega
            · have t4 := isxdigit_cppGet_lt s (countCR s + 3)
                (by rwa [Bool.not_eq_false] at h4)
              rw [if_neg h4] at hj
              simp at hj
              rcases hj with hj | hj | hj | hj | hj <;> omega

/-- Claim C7 evaluation: the example input of the source file's own header
comment (and of spec section 1) produces NO output: its third character `e` is
a hex digit, not a blank, so `preprocess_hex_str` classifies the line as
non-hex, resets the counter, and `gen_hexdump` writes nothing — both when the
lines are joined in single-packet mode and when fed line by line. -/
theorem claim_C7_eval :
    gen_hexdump 0 exAll = (0, []) ∧ runLines 0 [exLine1, exLine2, exLine3] = (0, []) := by
  constructor
  · rfl
  · rfl

/-- Claim C8 counterexample: on an unopenable input file the readers print the
message on standard output (`cout`), not standard error — the standard error
stream stays empty while the report goes to standard output. -/
theorem claim_C8_counterexample :
    (read_hex_str ['x'] none []).stderr = [] ∧ (read_hex_str ['x'] none []).stdout ≠ [] ∧
    (read_hex_gen_dump ['x'] none 0).stderr = [] ∧
    (read_hex_gen_dump ['x'] none 0).stdout ≠ [] := by
  refine ⟨rfl, ?_, rfl, ?_⟩
  · simp [read_hex_str]
  · simp [read_hex_gen_dump]

/-- Claim C8 amended: on an unopenable input file, `read_hex_str` reports the
error on standard output and returns 0 with the accumulator unmodified, and
`read_hex_gen_dump` reports on standard output and returns false leaving
`gLinePrefix` unchanged; neither writes anything to the output sink. -/
theorem claim_C8_amended (fname : List Char) (hex_str : List Char) (g : Nat) :
    read_hex_str fname none hex_str = RdStrOut.mk 0 hex_str [errMsg fname] [] ∧
    read_hex_gen_dump fname none g = RdGenOut.mk false g [] [errMsg fname] [] :=
  ⟨rfl, rfl⟩

/-- Claim C1 counterexample: the accepted input below extracts exactly
16 hex digits (N = 1), and `gen_hexdump` emits exactly one row — but that row
holds 16 digit characters, i.e. 8 two-character byte groups, not 16 as the
claim demands (16 byte groups would need 32 hex digits; the claim confuses
digits with bytes). -/
theorem claim_C1_counterexample :
    (extractDigits "aa bb cc dd ee ff 00 11".toList).length = 16 * 1 ∧
    (gen_hexdump 0 "aa bb cc dd ee ff 00 11".toList).2.length = 1 ∧
    ((((gen_hexdump 0 "aa bb cc dd ee ff 00 11".toList).2.getD 0 []).drop 7).filter
      (fun c => isxdigit c)).length = 16 ∧
    (byteGroups ((((gen_hexdump 0 "aa bb cc dd ee ff 00 11".toList).2.getD 0 []).drop 7).filter
      (fun c => isxdigit c))).length = 8 := by
  refine ⟨?_, ?_, ?_, ?_⟩ <;> decide

/-- Claim C4 counterexample: the string `1122` contains four hex digits but is
rejected by the classifier (its third character is not blank), so `gen_hexdump`
emits no rows and the concatenated output digits are empty, not `1122`. -/
theorem claim_C4_counterexample :
    (((gen_hexdump 0 "1122".toList).2).map stripRow).flatten ≠
      extractDigits "1122".toList ∧
    (gen_hexdump 0 "1122".toList).2 = [] ∧
    extractDigits "1122".toList = ['1', '1', '2', '2'] := by
  refine ⟨?_, rfl, ?_⟩ <;> decide

/-- Claim C1 amended: for an accepted input whose extracted hex-digit sequence
has length exactly 32·N (that is, 16·N bytes), starting from a reset counter,
`gen_hexdump` writes exactly N full rows; row j carries the offset prefix
`16·j` (hex 000000, 000010, 000020, …) and sixteen two-character byte groups
rendered with the standard separators. -/
theorem claim_C1_amended (s : List Char) (N : Nat) (hpre : preHex s = true)
    (hN : 1 ≤ N) (hlen : (extractDigits s).length = 32 * N)
    (hbound : 16 * N < 4294967296) :
    ((gen_hexdump 0 s).2).length = N ∧
    ∀ j, j < N → ∃ gs : List (List Char), gs.length = 16 ∧
      (∀ gp ∈ gs, gp.length = 2) ∧
      (gen_hexdump 0 s).2.getD j [] = offsetPfx (16 * j) ++ renderSpec 1 gs := by
  have hmain := gen_hexdump_eq 0 s (by norm_num)
  rw [if_pos hpre] at hmain
  have hout : (gen_hexdump 0 s).2 = hexRows 0 (extractDigits s) := by
    rw [hmain]
  have hdivN : (extractDigits s).length / 32 = N := by omega
  have hmodN : (extractDigits s).length % 32 = 0 := by omega
  have hlenout : (hexRows 0 (extractDigits s)).length = N := by
    rw [hexRows_length, if_pos hmodN, hdivN]
    omega
  constructor
  · rw [hout, hlenout]
  · intro j hj
    have hchunklen : (((extractDigits s).drop (32 * j)).take 32).length = 32 :=
      chunk_len_full _ j (by omega)
    have hchunkx : ∀ c ∈ ((extractDigits s).drop (32 * j)).take 32, isxdigit c = true := by
      intro c hc
      exact extractDigits_all_x s c (chunk_mem_sub _ j c hc)
    refine ⟨byteGroups (((extractDigits s).drop (32 * j)).take 32), ?_, ?_, ?_⟩
    · rw [byteGroups_len, hchunklen]
    · exact byteGroups_pairs _ (by rw [hchunklen]) 
    · rw [hout, hexRows_getD 0 _ j (by omega)]
      have hmod16 : (0 + 16 * j) % 4294967296 = 16 * j := by
        rw [Nat.zero_add]
        exact Nat.mod_eq_of_lt (by omega)
      rw [hmod16]
      congr 1
      rw [rowBody_renderSpec _ (by rw [← List.length_pos, hchunklen]; omega)
        (by rw [hchunklen])]
      rw [hchunklen]
      norm_num [sepAfterByte]

/-- Claim C3: in every flushed row with more than 8 byte groups, the row is
the offset prefix followed by the byte groups joined with exactly one space
between adjacent groups except exactly two spaces between the 8th and 9th, as
`renderSpec` words it; a full (32-digit) row ends right after its 16th group,
while a short even row carries one trailing space after its last group. -/
theorem claim_C3 (g : Nat) (s : List Char) (hg : g < 4294967296)
    (hpre : preHex s = true) (j : Nat) (hj : j < ((gen_hexdump g s).2).length)
    (hgroups : 8 < (byteGroups (((extractDigits s).drop (32 * j)).take 32)).length) :
    (gen_hexdump g s).2.getD j [] =
      offsetPfx ((g + 16 * j) % 4294967296) ++
        renderSpec 1 (byteGroups (((extractDigits s).drop (32 * j)).take 32)) ++
        (if (((extractDigits s).drop (32 * j)).take 32).length % 2 = 0 ∧
            (((extractDigits s).drop (32 * j)).take 32).length ≠ 32
         then [' '] else []) := by
  have hmain := gen_hexdump_eq g s hg
  rw [if_pos hpre] at hmain
  have hout : (gen_hexdump g s).2 = hexRows g (extractDigits s) := by
    rw [hmain]
  rw [hout] at hj ⊢
  rw [hexRows_getD g _ j hj]
  have hlen17 : 17 ≤ (((extractDigits s).drop (32 * j)).take 32).length := by
    have := byteGroups_len (((extractDigits s).drop (32 * j)).take 32)
    omega
  have hle32 : (((extractDigits s).drop (32 * j)).take 32).length ≤ 32 := by
    rw [List.length_take]
    omega
  rw [rowBody_renderSpec _ (by rw [← List.length_pos]; omega) hle32]
  rw [← List.append_assoc]
  congr 1
  by_cases hev : (((extractDigits s).drop (32 * j)).take 32).length % 2 = 0
  · by_cases h32 : (((extractDigits s).drop (32 * j)).take 32).length = 32
    · rw [if_pos hev, if_neg (show ¬ _ from fun hc => hc.2 h32)]
      rw [h32]
      norm_num [sepAfterByte]
    · rw [if_pos hev, if_pos (by exact ⟨hev, h32⟩)]
      have hb : (((extractDigits s).drop (32 * j)).take 32).length / 2 ≠ 8 := by
        omega
      have hb16 : (((extractDigits s).drop (32 * j)).take 32).length / 2 ≠ 16 := by
        omega
      unfold sepAfterByte
      rw [if_neg hb, if_pos hb16]
      rfl
  · rw [if_neg hev, if_neg (show ¬ _ from fun hc => hev hc.1)]

/-- Claim C9: for an accepted input whose digit count is a multiple of 16, no
emitted row is offset-only — every row written consists of an offset prefix
followed by a nonempty digit body — and when the digit count is a multiple of
32 the number of rows is exactly digits/32: the fresh row holding only the
next offset prefix after the last full flush is never written. -/
theorem claim_C9 (g : Nat) (s : List Char) (hg : g < 4294967296)
    (hpre : preHex s = true) (hmod : (extractDigits s).length % 16 = 0) :
    (∀ j, j < ((gen_hexdump g s).2).length → ∃ r : List Char, r ≠ [] ∧
      (gen_hexdump g s).2.getD j [] =
        offsetPfx ((g + 16 * j) % 4294967296) ++ rowBody r) ∧
    ((extractDigits s).length % 32 = 0 →
      ((gen_hexdump g s).2).length = (extractDigits s).length / 32) := by
  have hmain := gen_hexdump_eq g s hg
  rw [if_pos hpre] at hmain
  have hout : (gen_hexdump g s).2 = hexRows g (extractDigits s) := by
    rw [hmain]
  constructor
  · intro j hj
    rw [hout] at hj ⊢
    refine ⟨((extractDigits s).drop (32 * j)).take 32, ?_, hexRows_getD g _ j hj⟩
    rw [hexRows_length] at hj
    rw [← List.length_pos, List.length_take, List.length_drop]
    by_cases h32 : (extractDigits s).length % 32 = 0
    · rw [if_pos h32] at hj
      omega
    · rw [if_neg h32] at hj
      omega
  · intro h32
    rw [hout, hexRows_length, if_pos h32]
    omega

/-- A nonempty even-length row body of at most 15 bytes ends with a
separating space. -/
theorem rowBody_even_ends_sp (r : List Char) (h0 : r ≠ []) (he : r.length % 2 = 0)
    (hle : r.length ≤ 30) : ∃ u, rowBody r = u ++ [' '] := by
  have hr := rowBody_renderSpec r h0 (by omega)
  rw [if_pos he] at hr
  refine ⟨renderSpec 1 (byteGroups r) ++ (if r.length / 2 = 8 then [' '] else []), ?_⟩
  rw [hr]
  unfold sepAfterByte
  rw [if_pos (show r.length / 2 ≠ 16 by omega)]
  rw [List.append_assoc]

/-- Claim C10: for an accepted input with an odd number of extracted hex
digits, at least one row is flushed, the last flushed row ends with a space
followed by the final unpaired digit standing alone as a one-character group,
and when the digit count is ≡ 1 (mod 32) that last row is just the offset
prefix and the dangling digit — flushed although it holds no complete byte
group. -/
theorem claim_C10 (g : Nat) (s : List Char) (hg : g < 4294967296)
    (hpre : preHex s = true) (hodd : (extractDigits s).length % 2 = 1) :
    (gen_hexdump g s).2 ≠ [] ∧
    (∃ t, (gen_hexdump g s).2.getLastD [] =
      t ++ [' ', (extractDigits s).getLastD '0']) ∧
    ((extractDigits s).length % 32 = 1 →
      (gen_hexdump g s).2.getLastD [] =
        offsetPfx ((g + 16 * ((extractDigits s).length / 32)) % 4294967296) ++
          [(extractDigits s).getLastD '0']) := by
  have hmain := gen_hexdump_eq g s hg
  rw [if_pos hpre] at hmain
  have hout : (gen_hexdump g s).2 = hexRows g (extractDigits s) := by
    rw [hmain]
  have hmod : ¬ ((extractDigits s).length % 32 = 0) := by omega
  have hrows : hexRows g (extractDigits s) =
      (List.range ((extractDigits s).length / 32)).map
        (fun i => offsetPfx ((g + 16 * i) % 4294967296) ++
          rowBody (((extractDigits s).drop (32 * i)).take 32)) ++
      [offsetPfx ((g + 16 * ((extractDigits s).length / 32)) % 4294967296) ++
        rowBody ((extractDigits s).drop (32 * ((extractDigits s).length / 32)))] := by
    unfold hexRows
    rw [if_neg hmod]
  have hlast : (hexRows g (extractDigits s)).getLastD [] =
      offsetPfx ((g + 16 * ((extractDigits s).length / 32)) % 4294967296) ++
        rowBody ((extractDigits s).drop (32 * ((extractDigits s).length / 32))) := by
    rw [hrows, getLastD_app _ _ _ (by simp)]
    rfl
  have hrfLen : ((extractDigits s).drop (32 * ((extractDigits s).length / 32))).length =
      (extractDigits s).length % 32 := by
    rw [List.length_drop]
    omega
  have hrfne : (extractDigits s).drop (32 * ((extractDigits s).length / 32)) ≠ [] := by
    rw [← List.length_pos, hrfLen]
    omega
  rcases List.eq_nil_or_concat
    ((extractDigits s).drop (32 * ((extractDigits s).length / 32))) with hnil | hcc
  · exact absurd hnil hrfne
  obtain ⟨rf2, x, hx⟩ := hcc
  rw [List.concat_eq_append] at hx
  have hrf2even : rf2.length % 2 = 0 := by
    have : ((extractDigits s).drop (32 * ((extractDigits s).length / 32))).length =
        rf2.length + 1 := by
      rw [hx]
      simp
    omega
  have hxD : x = (extractDigits s).getLastD '0' := by
    have h1 : ((extractDigits s).drop (32 * ((extractDigits s).length / 32))).getLastD '0'
        = x := by
      rw [hx]
      exact getLastD_concat rf2 x '0'
    have h2 : (extractDigits s).getLastD '0' =
        ((extractDigits s).drop (32 * ((extractDigits s).length / 32))).getLastD '0' := by
      conv_lhs => rw [← List.take_append_drop (32 * ((extractDigits s).length / 32))
        (extractDigits s)]
      exact getLastD_app _ _ _ hrfne
    rw [h2, h1]
  have hbody : rowBody ((extractDigits s).drop (32 * ((extractDigits s).length / 32))) =
      rowBody rf2 ++ [x] := by
    rw [hx, rowBody_append_even x rf2 hrf2even]
  refine ⟨?_, ?_, ?_⟩
  · rw [hout, hrows]
    simp
  · rw [hout, hlast, hbody, ← hxD]
    rcases List.eq_nil_or_concat rf2 with h2nil | h2cc
    · refine ⟨offsetDigits ((g + 16 * ((extractDigits s).length / 32)) % 4294967296), ?_⟩
      rw [h2nil]
      simp [rowBody, rowBodyAux, offsetPfx, List.append_assoc]
    · have h2ne : rf2 ≠ [] := by
        obtain ⟨l2, y, hy⟩ := h2cc
        rw [hy]
        simp
      have h2le : rf2.length ≤ 30 := by
        have hl : ((extractDigits s).drop (32 * ((extractDigits s).length / 32))).length =
            rf2.length + 1 := by
          rw [hx]
          simp
        omega
      obtain ⟨u, hu⟩ := rowBody_even_ends_sp rf2 h2ne hrf2even h2le
      refine ⟨offsetPfx ((g + 16 * ((extractDigits s).length / 32)) % 4294967296) ++ u, ?_⟩
      rw [hu]
      simp [List.append_assoc]
  · intro h1
    have hlen1 : ((extractDigits s).drop (32 * ((extractDigits s).length / 32))).length
        = 1 := by
      rw [hrfLen, h1]
    have h2nil : rf2 = [] := by
      rw [hx] at hlen1
      simpa using hlen1
    rw [hout, hlast, hbody, h2nil, ← hxD]
    rfl

/-- Claim C4 amended: for every input ACCEPTED by the classifier (with offsets
small enough that every printed offset fits in 6 hex digits), stripping each
emitted row's 6-digit offset prefix and all whitespace and concatenating
yields exactly the hex digits of the input, lowercased, in original order. -/
theorem claim_C4_amended (g : Nat) (s : List Char) (hg : g < 4294967296)
    (hpre : preHex s = true)
    (hb : g + 16 * ((extractDigits s).length / 32) < 16777216) :
    (((gen_hexdump g s).2).map stripRow).flatten = extractDigits s := by
  have hmain := gen_hexdump_eq g s hg
  rw [if_pos hpre] at hmain
  have hout : (gen_hexdump g s).2 = hexRows g (extractDigits s) := by
    rw [hmain]
  rw [hout]
  unfold hexRows
  rw [List.map_append, List.map_map]
  have hmap : (List.range ((extractDigits s).length / 32)).map
      (stripRow ∘ fun i => offsetPfx ((g + 16 * i) % 4294967296) ++
        rowBody (((extractDigits s).drop (32 * i)).take 32)) =
      (List.range ((extractDigits s).length / 32)).map
      (fun i => ((extractDigits s).drop (32 * i)).take 32) := by
    refine List.map_congr_left ?_
    intro i hi
    rw [List.mem_range] at hi
    simp only [Function.comp_apply]
    have hgi : (g + 16 * i) % 4294967296 = g + 16 * i := Nat.mod_eq_of_lt (by omega)
    rw [hgi]
    exact stripRow_row _ _ (by omega)
      (fun c hc => extractDigits_all_x s c (chunk_mem_sub _ i c hc))
  rw [hmap]
  by_cases hmod : (extractDigits s).length % 32 = 0
  · rw [if_pos hmod]
    have hres : (extractDigits s).drop (32 * ((extractDigits s).length / 32)) = [] := by
      apply List.length_eq_zero.mp
      rw [List.length_drop]
      omega
    have hch := chunks_flatten (extractDigits s).length (extractDigits s) rfl
    rw [hres, List.append_nil] at hch
    simp only [List.map_nil, List.append_nil]
    exact hch
  · rw [if_neg hmod]
    have hch := chunks_flatten (extractDigits s).length (extractDigits s) rfl
    have hstrip : stripRow
        (offsetPfx ((g + 16 * ((extractDigits s).length / 32)) % 4294967296) ++
          rowBody ((extractDigits s).drop (32 * ((extractDigits s).length / 32)))) =
        (extractDigits s).drop (32 * ((extractDigits s).length / 32)) := by
      rw [Nat.mod_eq_of_lt (show g + 16 * ((extractDigits s).length / 32) < 4294967296
        by omega)]
      exact stripRow_row _ _ (by omega)
        (fun c hc => extractDigits_all_x s c (List.mem_of_mem_drop hc))
    rw [List.map_cons, List.map_nil, hstrip, List.flatten_append]
    simpa using hch

/-! ### Counting complete rows (claim C2) -/

theorem countComplete_app (A B : List (List Char)) :
    countComplete (A ++ B) = countComplete A + countComplete B := by
  unfold countComplete
  rw [List.filter_append, List.length_append]

theorem countComplete_all (A : List (List Char))
    (h : ∀ row ∈ A, rowDigitCount row = 32) : countComplete A = A.length := by
  unfold countComplete
  rw [List.filter_eq_self.mpr]
  intro row hrow
  simp [h row hrow]

theorem countComplete_none (A : List (List Char))
    (h : ∀ row ∈ A, rowDigitCount row ≠ 32) : countComplete A = 0 := by
  unfold countComplete
  rw [List.length_eq_zero, List.filter_eq_nil_iff]
  intro row hrow
  simp [h row hrow]

theorem row_take6 (x : Nat) (r : List Char) (hx : x < 16777216) :
    (offsetPfx x ++ rowBody r).take 6 = offsetDigits x := by
  have h6 := offsetDigits_len x hx
  rw [offsetPfx, List.append_assoc, ← h6, List.take_left]

theorem line_facts (k : Nat) (s : List Char) (hpre : preHex s = true)
    (hcap : 16 * k + (extractDigits s).length < 16777216) :
    (gen_hexdump (16 * k) s).1 = 16 * (k + (extractDigits s).length / 32) ∧
    countComplete ((gen_hexdump (16 * k) s).2) = (extractDigits s).length / 32 ∧
    (∀ j, j ≤ (extractDigits s).length / 32 →
      countComplete (((gen_hexdump (16 * k) s).2).take j) = j) ∧
    (∀ j, j < ((gen_hexdump (16 * k) s).2).length →
      (((gen_hexdump (16 * k) s).2).getD j []).take 6 = offsetDigits (16 * (k + j))) ∧
    ((gen_hexdump (16 * k) s).2).length ≤ (extractDigits s).length / 32 + 1 := by
  have hdivle : 16 * ((extractDigits s).length / 32) ≤ (extractDigits s).length := by
    omega
  have hg32 : 16 * k < 4294967296 := by omega
  have hmain := gen_hexdump_eq (16 * k) s hg32
  rw [if_pos hpre] at hmain
  have hout : (gen_hexdump (16 * k) s).2 = hexRows (16 * k) (extractDigits s) := by
    rw [hmain]
  have hfull : ∀ row ∈ (List.range ((extractDigits s).length / 32)).map
      (fun i => offsetPfx ((16 * k + 16 * i) % 4294967296) ++
        rowBody (((extractDigits s).drop (32 * i)).take 32)),
      rowDigitCount row = 32 := by
    intro row hrow
    rw [List.mem_map] at hrow
    obtain ⟨i, hi, hrow⟩ := hrow
    rw [List.mem_range] at hi
    have hgi : (16 * k + 16 * i) % 4294967296 = 16 * k + 16 * i :=
      Nat.mod_eq_of_lt (by omega)
    rw [← hrow, hgi]
    unfold rowDigitCount
    rw [row_digit_filter _ _ (by omega)
      (fun c hc => extractDigits_all_x s c (chunk_mem_sub _ i c hc))]
    exact chunk_len_full _ i hi
  have hshort : ¬ ((extractDigits s).length % 32 = 0) →
      rowDigitCount (offsetPfx ((16 * k + 16 * ((extractDigits s).length / 32)) %
          4294967296) ++
        rowBody ((extractDigits s).drop (32 * ((extractDigits s).length / 32)))) =
        (extractDigits s).length % 32 := by
    intro _
    have hgi : (16 * k + 16 * ((extractDigits s).length / 32)) % 4294967296 =
        16 * k + 16 * ((extractDigits s).length / 32) :=
      Nat.mod_eq_of_lt (by omega)
    rw [hgi]
    unfold rowDigitCount
    rw [row_digit_filter _ _ (by omega)
      (fun c hc => extractDigits_all_x s c (List.mem_of_mem_drop hc))]
    rw [List.length_drop]
    omega
  have hccout : countComplete ((gen_hexdump (16 * k) s).2) =
      (extractDigits s).length / 32 := by
    rw [hout]
    unfold hexRows
    rw [countComplete_app, countComplete_all _ hfull]
    by_cases hmod : (extractDigits s).length % 32 = 0
    · rw [if_pos hmod]
      simp [countComplete]
    · rw [if_neg hmod, countComplete_none]
      · simp
      · intro row hrow
        rw [List.mem_singleton] at hrow
        rw [hrow, hshort hmod]
        omega
  refine ⟨?_, hccout, ?_, ?_, ?_⟩
  · rw [hmain]
    show (16 * k + 16 * ((extractDigits s).length / 32)) % 4294967296 = _
    rw [Nat.mod_eq_of_lt (by omega)]
    omega
  · intro j hj
    rw [hout]
    unfold hexRows
    rw [List.take_append_eq_append_take]
    have hmaplen : ((List.range ((extractDigits s).length / 32)).map
        (fun i => offsetPfx ((16 * k + 16 * i) % 4294967296) ++
          rowBody (((extractDigits s).drop (32 * i)).take 32))).length =
        (extractDigits s).length / 32 := by
      rw [List.length_map, List.length_range]
    rw [hmaplen, show j - (extractDigits s).length / 32 = 0 by omega, List.take_zero,
      List.append_nil, countComplete_all]
    · rw [List.length_take, hmaplen]
      omega
    · intro row hrow
      exact hfull row (List.mem_of_mem_take hrow)
  · intro j hj
    rw [hout] at hj ⊢
    rw [hexRows_getD _ _ j hj]
    rw [hexRows_length] at hj
    have hjN : j ≤ (extractDigits s).length / 32 := by
      by_cases hmod : (extractDigits s).length % 32 = 0
      · rw [if_pos hmod] at hj
        omega
      · rw [if_neg hmod] at hj
        omega
    have hgi : (16 * k + 16 * j) % 4294967296 = 16 * k + 16 * j :=
      Nat.mod_eq_of_lt (by omega)
    rw [hgi, row_take6 _ _ (by omega)]
    congr 1
    omega
  · rw [hout, hexRows_length]
    by_cases hmod : (extractDigits s).length % 32 = 0
    · rw [if_pos hmod]
      omega
    · rw [if_neg hmod]

/-- Claim C2: starting from a freshly reset counter (`gLinePrefix = 16·k`
models `k` complete rows already emitted since the last reset; the reset point
itself is `k = 0`), running the multi-packet loop over any sequence of
accepted lines prints on every row a 6-digit offset equal to 16 times the
number of complete 16-byte rows flushed before it since the reset — across
invocation boundaries — and leaves the counter at 16 times the total number
of complete rows emitted. -/
theorem claim_C2 : ∀ (ls : List (List Char)) (k : Nat),
    (∀ l ∈ ls, preHex l = true) →
    16 * k + totalDigits ls < 16777216 →
    (∀ j, j < ((runLines (16 * k) ls).2).length →
      (((runLines (16 * k) ls).2).getD j []).take 6 =
        offsetDigits (16 * (k + countComplete (((runLines (16 * k) ls).2).take j)))) ∧
    (runLines (16 * k) ls).1 =
      16 * (k + countComplete ((runLines (16 * k) ls).2)) := by
  intro ls
  induction ls with
  | nil =>
    intro k _ _
    constructor
    · intro j hj
      simp [runLines] at hj
    · simp [runLines, countComplete]
  | cons l ls ih =>
    intro k hall hcap
    have hpl : preHex l = true := hall l (by simp)
    have hempty : l.isEmpty = false := by
      cases l with
      | nil => exact absurd hpl (by decide)
      | cons c t => rfl
    have htd : totalDigits (l :: ls) = (extractDigits l).length + totalDigits ls := by
      unfold totalDigits
      rw [List.map_cons, List.sum_cons]
    obtain ⟨A1, A2, A3, A4, A5⟩ := line_facts k l hpl (by omega)
    have hdivle : 16 * ((extractDigits l).length / 32) ≤ (extractDigits l).length := by
      omega
    have hrun : runLines (16 * k) (l :: ls) =
        ((runLines (16 * (k + (extractDigits l).length / 32)) ls).1,
         (gen_hexdump (16 * k) l).2 ++
           (runLines (16 * (k + (extractDigits l).length / 32)) ls).2) := by
      simp only [runLines, hempty, Bool.false_eq_true, if_false, A1]
    have hih := ih (k + (extractDigits l).length / 32)
      (fun l2 hl2 => hall l2 (by simp [hl2])) (by omega)
    rw [hrun]
    constructor
    · intro j hj
      simp only [List.length_append] at hj
      by_cases hlt : j < ((gen_hexdump (16 * k) l).2).length
      · rw [getD_app_lt _ _ _ j hlt, List.take_append_eq_append_take,
          show j - ((gen_hexdump (16 * k) l).2).length = 0 by omega, List.take_zero,
          List.append_nil]
        have hjN : j ≤ (extractDigits l).length / 32 := by omega
        rw [A3 j hjN]
        exact A4 j hlt
      · push_neg at hlt
        rw [getD_app_ge _ _ _ j hlt, List.take_append_eq_append_take,
          List.take_of_length_le hlt]
        have hj2 : j - ((gen_hexdump (16 * k) l).2).length <
            ((runLines (16 * (k + (extractDigits l).length / 32)) ls).2).length := by
          omega
        rw [countComplete_app, A2]
        have := hih.1 (j - ((gen_hexdump (16 * k) l).2).length) hj2
        rw [this]
        congr 2
        omega
    · rw [countComplete_app, A2, hih.2]
      congr 1
      omega

/-- Witness for claim C5 at a concrete rejected line. -/
theorem claim_C5_witness :
    ((preprocess_hex_str "zz11 22".toList 7).1 = true ↔ specCond "zz11 22".toList) ∧
    (preprocess_hex_str "zz11 22".toList 7).2 = 0 ∧
    gen_hexdump 7 "zz11 22".toList = (0, []) :=
  ⟨(claim_C5 "zz11 22".toList 7).1,
   ((claim_C5 "zz11 22".toList 7).2 (by decide)).1,
   ((claim_C5 "zz11 22".toList 7).2 (by decide)).2⟩

/-- Witness for claim C6 at a one-character line. -/
theorem claim_C6_witness :
    preHex ['a'] = false ∧ ∀ j ∈ classifierAccessList ['a'], j ≤ (['a'] : List Char).length :=
  claim_C6 ['a'] (by decide)

/-- Witness for the amended claim C1 at a 16-byte (32-digit) input. -/
theorem claim_C1_witness :
    ((gen_hexdump 0 "aa bb cc dd ee ff 00 11 22 33 44 55 66 77 88 99".toList).2).length = 1 ∧
    ∀ j, j < 1 → ∃ gs : List (List Char), gs.length = 16 ∧
      (∀ gp ∈ gs, gp.length = 2) ∧
      (gen_hexdump 0 "aa bb cc dd ee ff 00 11 22 33 44 55 66 77 88 99".toList).2.getD j []
        = offsetPfx (16 * j) ++ renderSpec 1 gs :=
  claim_C1_amended "aa bb cc dd ee ff 00 11 22 33 44 55 66 77 88 99".toList 1
    (by decide) (by decide) (by decide) (by decide)

/-- Witness for claim C3 at a 9-byte input. -/
theorem claim_C3_witness :
    (gen_hexdump 0 "aa bb cc dd ee ff 00 11 22".toList).2.getD 0 [] =
      offsetPfx ((0 + 16 * 0) % 4294967296) ++
        renderSpec 1 (byteGroups (((extractDigits "aa bb cc dd ee ff 00 11 22".toList).drop
          (32 * 0)).take 32)) ++
        (if (((extractDigits "aa bb cc dd ee ff 00 11 22".toList).drop (32 * 0)).take
              32).length % 2 = 0 ∧
            (((extractDigits "aa bb cc dd ee ff 00 11 22".toList).drop (32 * 0)).take
              32).length ≠ 32
         then [' '] else []) :=
  claim_C3 0 "aa bb cc dd ee ff 00 11 22".toList (by decide) (by decide) 0
    (by decide) (by decide)

/-- Witness for the amended claim C4 at a 3-byte input. -/
theorem claim_C4_witness :
    (((gen_hexdump 0 "aa bb cc".toList).2).map stripRow).flatten =
      extractDigits "aa bb cc".toList :=
  claim_C4_amended 0 "aa bb cc".toList (by decide) (by decide) (by decide)

/-- Witness for claim C9 at a 16-digit input. -/
theorem claim_C9_witness :
    (∀ j, j < ((gen_hexdump 0 "aa bb cc dd ee ff 00 11".toList).2).length →
      ∃ r : List Char, r ≠ [] ∧
      (gen_hexdump 0 "aa bb cc dd ee ff 00 11".toList).2.getD j [] =
        offsetPfx ((0 + 16 * j) % 4294967296) ++ rowBody r) ∧
    ((extractDigits "aa bb cc dd ee ff 00 11".toList).length % 32 = 0 →
      ((gen_hexdump 0 "aa bb cc dd ee ff 00 11".toList).2).length =
        (extractDigits "aa bb cc dd ee ff 00 11".toList).length / 32) :=
  claim_C9 0 "aa bb cc dd ee ff 00 11".toList (by decide) (by decide) (by decide)

/-- Witness for claim C10 at a 5-digit (odd) input. -/
theorem claim_C10_witness :
    (gen_hexdump 0 "aa bb c".toList).2 ≠ [] ∧
    (∃ t, (gen_hexdump 0 "aa bb c".toList).2.getLastD [] =
      t ++ [' ', (extractDigits "aa bb c".toList).getLastD '0']) ∧
    ((extractDigits "aa bb c".toList).length % 32 = 1 →
      (gen_hexdump 0 "aa bb c".toList).2.getLastD [] =
        offsetPfx ((0 + 16 * ((extractDigits "aa bb c".toList).length / 32)) %
            4294967296) ++
          [(extractDigits "aa bb c".toList).getLastD '0']) :=
  claim_C10 0 "aa bb c".toList (by decide) (by decide) (by decide)

/-- Witness for claim C2 at a two-line run: a full 16-byte line then a short
line; the second invocation's row is printed with offset 000010. -/
theorem claim_C2_witness :
    (∀ j, j < ((runLines (16 * 0)
        ["aa bb cc dd ee ff 00 11 22 33 44 55 66 77 88 99".toList,
         "aa bb c".toList]).2).length →
      (((runLines (16 * 0)
        ["aa bb cc dd ee ff 00 11 22 33 44 55 66 77 88 99".toList,
         "aa bb c".toList]).2).getD j []).take 6 =
        offsetDigits (16 * (0 + countComplete (((runLines (16 * 0)
          ["aa bb cc dd ee ff 00 11 22 33 44 55 66 77 88 99".toList,
           "aa bb c".toList]).2).take j)))) ∧
    (runLines (16 * 0)
      ["aa bb cc dd ee ff 00 11 22 33 44 55 66 77 88 99".toList,
       "aa bb c".toList]).1 =
      16 * (0 + countComplete ((runLines (16 * 0)
        ["aa bb cc dd ee ff 00 11 22 33 44 55 66 77 88 99".toList,
         "aa bb c".toList]).2)) :=
  claim_C2 ["aa bb cc dd ee ff 00 11 22 33 44 55 66 77 88 99".toList,
    "aa bb c".toList] 0 (by decide) (by decide)
